import Mathlib

/-!
Verification of the Secure-VLC core (`CombinedCode/src`): the chaotic-map
keystream generator (`common_utils/encryption.c`), the ring buffer
(`common_utils/ring_buffer.c`), the TX framer (`transmission/TX_functions.c`)
and the RX byte unpacking (`reception/RX_functions.c`).

C `double` values are shallowly embedded as exact (unnormalized) fractions
together with an explicit IEEE-754 binary64 round-to-nearest-even rounding
function; every C arithmetic operation on `double` becomes the exact fraction
operation followed by this rounding, which matches the hardware semantics for
all values in the binary64 normal range (the only range exercised here; the
target computes doubles in software with correct round-to-nearest-even
rounding and no FMA contraction).  Machine integers (`uint32_t`, `uint64_t`)
are natural numbers reduced modulo `2^32` / `2^64` where the C code wraps.
-/

/-- Exact fraction `num / den` (with `den` kept positive by construction).
Fractions are not normalized, so all arithmetic is gcd-free and reduces in
the kernel.  Every `double` value in the embedding is the image of `roundFl`,
which produces a canonical dyadic representation, so structural equality of
such values coincides with value equality. -/
structure Fl where
  num : ℤ
  den : ℕ
deriving DecidableEq

/-- Multiplication of exact fractions. -/
def Fl.mul (a b : Fl) : Fl := ⟨a.num * b.num, a.den * b.den⟩

/-- Addition of exact fractions. -/
def Fl.add (a b : Fl) : Fl := ⟨a.num * (b.den : ℤ) + b.num * (a.den : ℤ), a.den * b.den⟩

/-- Subtraction of exact fractions. -/
def Fl.sub (a b : Fl) : Fl := ⟨a.num * (b.den : ℤ) - b.num * (a.den : ℤ), a.den * b.den⟩

/-- Negation of an exact fraction. -/
def Fl.neg (a : Fl) : Fl := ⟨-a.num, a.den⟩

/-- Absolute value of an exact fraction. -/
def Fl.abs (a : Fl) : Fl := ⟨|a.num|, a.den⟩

/-- Value order on exact fractions (dens are positive by construction). -/
def Fl.lt (a b : Fl) : Bool := a.num * (b.den : ℤ) < b.num * (a.den : ℤ)

/-- Value order (non-strict) on exact fractions. -/
def Fl.le (a b : Fl) : Bool := a.num * (b.den : ℤ) ≤ b.num * (a.den : ℤ)

/-- Floor of an exact fraction. -/
def Fl.floor (a : Fl) : ℤ := Int.fdiv a.num (a.den : ℤ)

/-- Exact fraction for the integer power `2 ^ k`. -/
def pow2 (k : ℤ) : Fl := if 0 ≤ k then ⟨2 ^ k.toNat, 1⟩ else ⟨1, 2 ^ (-k).toNat⟩

/-- Fuel-bounded upward search for the binary64 exponent: raise `e` while
`2 ^ (e + 1) ≤ a`.  The fuel `1100` covers the binary64 exponent range. -/
def findExpUp (a : Fl) : ℕ → ℤ → ℤ
  | 0, e => e
  | fuel + 1, e => if (pow2 (e + 1)).le a then findExpUp a fuel (e + 1) else e

/-- Fuel-bounded downward search: decrease `e` while `a < 2 ^ e`. -/
def findExpDown (a : Fl) : ℕ → ℤ → ℤ
  | 0, e => e
  | fuel + 1, e => if a.lt (pow2 e) then findExpDown a fuel (e - 1) else e

/-- Binary exponent of a positive fraction: the unique `e` (within the fuel
range) with `2 ^ e ≤ a < 2 ^ (e + 1)`. -/
def findExp (a : Fl) : ℤ :=
  if (pow2 0).le a then findExpUp a 1100 0 else findExpDown a 1100 0

/-- Round an exact fraction to an integer, ties to even (the IEEE-754
default rounding). -/
def rndHalfEven (m : Fl) : ℤ :=
  let f := m.floor
  let r := m.sub ⟨f, 1⟩
  if r.lt ⟨1, 2⟩ then f
  else if (Fl.mk 1 2).lt r then f + 1
  else if f % 2 = 0 then f else f + 1

/-- Canonical dyadic representation of `±n * 2 ^ (e - 52)` with
`n ∈ [2^52, 2^53]`. -/
def mkDyadic (isNegative : Bool) (n : ℤ) (e : ℤ) : Fl :=
  let v : ℤ := if isNegative then -n else n
  if 52 ≤ e then ⟨v * 2 ^ (e - 52).toNat, 1⟩ else ⟨v, 2 ^ (52 - e).toNat⟩

/-- Round an exact fraction to the nearest IEEE-754 binary64 value (ties to
even), for values in the binary64 normal range.  `0` is mapped to `+0.0`. -/
def roundFl (q : Fl) : Fl :=
  if q.num = 0 then ⟨0, 1⟩
  else
    let a := q.abs
    let e := findExp a
    mkDyadic (q.num < 0) (rndHalfEven (a.mul (pow2 (52 - e)))) e

/-- Binary64 addition: exact addition followed by rounding. -/
def fladd (a b : Fl) : Fl := roundFl (a.add b)

/-- Binary64 subtraction. -/
def flsub (a b : Fl) : Fl := roundFl (a.sub b)

/-- Binary64 multiplication. -/
def flmul (a b : Fl) : Fl := roundFl (a.mul b)

/-- Binary64 value of the decimal literal `n / d` (how a C `double` literal
such as `2.75` is stored). -/
def flDec (n : ℤ) (d : ℕ) : Fl := roundFl ⟨n, d⟩

/-- Embedding of `doubleToUint64Bits` from `encryption.c`: the IEEE-754
binary64 bit pattern of a double, read as a `uint64_t` (the `memcpy`
reinterpretation).  Exact for `+0.0` and all values in the normal range. -/
def doubleToUint64Bits (q : Fl) : ℕ :=
  if q.num = 0 then 0
  else
    let a := q.abs
    let e := findExp a
    let mant := ((a.mul (pow2 (52 - e))).floor).toNat - 2 ^ 52
    (if q.num < 0 then 2 ^ 63 else 0) + (e + 1023).toNat * 2 ^ 52 + mant

/-- Constant `DUFFING_ALPHA` (`2.75`) from `encryption.h`. -/
def DUFFING_ALPHA : Fl := flDec 275 100

/-- Constant `DUFFING_BETA` (`0.2`) from `encryption.h`. -/
def DUFFING_BETA : Fl := flDec 2 10

/-- Constant `LOGISTIC_R` (`3.99`) from `encryption.h`. -/
def LOGISTIC_R : Fl := flDec 399 100

/-- Constant `LOGISTIC2D_R` (`1.19`) from `encryption.h`. -/
def LOGISTIC2D_R : Fl := flDec 119 100

/-- Structure `chaotic_map_t` from `encryption.h`: a 2-D map state plus its
configured warm-up iteration count (a C `int`; the loop in
`initialize_generator` runs `iterations` times when it is non-negative). -/
structure chaotic_map_t where
  x : Fl
  y : Fl
  iterations : ℕ
deriving DecidableEq

/-- Embedding of `duffing_map_iteration` from `encryption.c`:
`temp_x = y; y = -BETA*x + ALPHA*temp_x - temp_x^3; x = temp_x`, with every
`double` operation rounded as C does. -/
def duffing_map_iteration (map : chaotic_map_t) : chaotic_map_t :=
  let temp_x := map.y
  { map with
    y := flsub (fladd (flmul DUFFING_BETA.neg map.x) (flmul DUFFING_ALPHA temp_x))
               (flmul (flmul temp_x temp_x) temp_x)
    x := temp_x }

/-- Embedding of `logistic_map_iteration` from `encryption.c`:
`x = R*x*(1-x); y = R*y*(1-y)` (the two coordinates are independent). -/
def logistic_map_iteration (map : chaotic_map_t) : chaotic_map_t :=
  { map with
    x := flmul (flmul LOGISTIC_R map.x) (flsub ⟨1, 1⟩ map.x)
    y := flmul (flmul LOGISTIC_R map.y) (flsub ⟨1, 1⟩ map.y) }

/-- Embedding of `logistic2D_map_iteration` from `encryption.c`.  The source
assigns `map->x` first, so the `y` update reads the already-updated `x`. -/
def logistic2D_map_iteration (map : chaotic_map_t) : chaotic_map_t :=
  let x1 := flmul (flmul (flmul LOGISTIC2D_R (fladd (flmul ⟨3, 1⟩ map.y) ⟨1, 1⟩)) map.x)
                  (flsub ⟨1, 1⟩ map.x)
  { map with
    x := x1
    y := flmul (flmul (flmul LOGISTIC2D_R (fladd (flmul ⟨3, 1⟩ x1) ⟨1, 1⟩)) map.y)
               (flsub ⟨1, 1⟩ map.y) }

/-- Enumeration `map_type_t` from `encryption.h`. -/
inductive map_type_t where
  | MAP_DUFFING
  | MAP_LOGISTIC
  | MAP_2D_LOGISTIC
deriving DecidableEq

/-- Embedding of the function-pointer dispatch `get_chaotic_map_iterator_t`
from `encryption.c`, applied: one iteration of the selected map.  Every
`map_type_t` value selects an iterator, so the `NULL` branch is unreachable. -/
def chaotic_map_iteration (t : map_type_t) (m : chaotic_map_t) : chaotic_map_t :=
  match t with
  | .MAP_DUFFING => duffing_map_iteration m
  | .MAP_LOGISTIC => logistic_map_iteration m
  | .MAP_2D_LOGISTIC => logistic2D_map_iteration m

/-- Structure `msws32_var_t` from `encryption.h`: the 64-bit MSWS state
(`x`, Weyl accumulator `w`, Weyl increment `s`), as naturals below `2^64`. -/
structure msws32_var_t where
  x : ℕ
  w : ℕ
  s : ℕ
deriving DecidableEq

/-- Embedding of `msws32` from `encryption.c`:
`x *= x; x += (w += s); return x = (x >> 32) | (x << 32);` with `uint64_t`
wraparound made explicit and the `uint32_t` return value being the low 32
bits.  Returns the keystream word together with the updated state. -/
def msws32 (v : msws32_var_t) : ℕ × msws32_var_t :=
  let x1 := (v.x * v.x) % 2 ^ 64
  let w1 := (v.w + v.s) % 2 ^ 64
  let x2 := (x1 + w1) % 2 ^ 64
  let x3 := (x2 >>> 32) ||| ((x2 <<< 32) % 2 ^ 64)
  (x3 % 2 ^ 32, { x := x3, w := w1, s := v.s })

/-- Iterate a map `n` times (the `for` loop inside `initialize_generator`). -/
def iterate_map (iter : chaotic_map_t → chaotic_map_t) : ℕ → chaotic_map_t → chaotic_map_t
  | 0, m => m
  | n + 1, m => iterate_map iter n (iter m)

/-- Embedding of `initialize_generator` from `encryption.c`: iterate the map
`iterations` times, discarding all intermediate output. -/
def initialize_generator (iter : chaotic_map_t → chaotic_map_t) (m : chaotic_map_t) : chaotic_map_t :=
  iterate_map iter m.iterations m

/-- Structure `encryption_vars_t` from `encryption.h`.  The function-pointer
field `chaotic_map_iterator` is represented by dispatching on `type` at each
call (it always holds `get_chaotic_map_iterator_t type`). -/
structure encryption_vars_t where
  type : map_type_t
  chaotic_map1 : chaotic_map_t
  chaotic_map2 : chaotic_map_t
  msws32_variables : msws32_var_t
deriving DecidableEq

/-- Embedding of `key_generator_setup` from `encryption.c`: warm up both maps,
then store the bit pattern of the post-warm-up `chaotic_map2.y` into both
`msws32_variables->x` and `msws32_variables->s`.  The field `w` is not
touched by this function. -/
def key_generator_setup (e : encryption_vars_t) : encryption_vars_t :=
  let m1 := initialize_generator (chaotic_map_iteration e.type) e.chaotic_map1
  let m2 := initialize_generator (chaotic_map_iteration e.type) e.chaotic_map2
  { e with
    chaotic_map1 := m1
    chaotic_map2 := m2
    msws32_variables := { e.msws32_variables with
      x := doubleToUint64Bits m2.y
      s := doubleToUint64Bits m2.y } }

/-- Embedding of `key_generator` from `encryption.c`: advance `chaotic_map1`
one step, overwrite `w` with the bit pattern of the new `map1.y`, XOR in the
bit pattern of the new `map1.x` exactly when the variant is the logistic map,
then run one `msws32` step. -/
def key_generator (e : encryption_vars_t) : ℕ × encryption_vars_t :=
  let m1 := chaotic_map_iteration e.type e.chaotic_map1
  let w0 := doubleToUint64Bits m1.y
  let w1 := if e.type = map_type_t.MAP_LOGISTIC then w0 ^^^ doubleToUint64Bits m1.x else w0
  let kg := msws32 { e.msws32_variables with w := w1 }
  (kg.1, { e with chaotic_map1 := m1, msws32_variables := kg.2 })

/-- Embedding of the tail of `cmd_set_encryption` from
`console/console_commands.c` (lines 309-346): the per-direction encryption
variables are filled from the console arguments, the freshly allocated
`msws32_variables` struct is zeroed by `memset`, and `key_generator_setup`
is called. -/
def cmd_set_encryption_vars (t : map_type_t) (x1 y1 : Fl) (it1 : ℕ) (x2 y2 : Fl) (it2 : ℕ) :
    encryption_vars_t :=
  key_generator_setup
    { type := t
      chaotic_map1 := { x := x1, y := y1, iterations := it1 }
      chaotic_map2 := { x := x2, y := y2, iterations := it2 }
      msws32_variables := { x := 0, w := 0, s := 0 } }

/-- First `n` keystream words produced by successive `key_generator` calls,
threading the state. -/
def keystreamList : encryption_vars_t → ℕ → List ℕ
  | _, 0 => []
  | e, n + 1 => (key_generator e).1 :: keystreamList (key_generator e).2 n

/-- State of the generator after `n` `key_generator` calls, outputs discarded. -/
def advance_generator : ℕ → encryption_vars_t → encryption_vars_t
  | 0, e => e
  | n + 1, e => advance_generator n (key_generator e).2

/-- Constant `BUFFER_MAX_SIZE` from `config.h`. -/
def BUFFER_MAX_SIZE : ℕ := 128

/-- Structure `RingBuffer` from `ring_buffer.h`: the storage array (modelled
as a total function on indices), head and tail indices, and the element
count `size`. -/
structure RingBuffer where
  buffer : ℕ → ℕ
  head : ℕ
  tail : ℕ
  size : ℕ

/-- Embedding of `createRingBuffer` from `ring_buffer.c` (successful
allocation): `head`, `tail` and `size` are zeroed; the `malloc`-ed storage
contents are arbitrary, so the model takes them as a parameter. -/
def createRingBuffer (storage : ℕ → ℕ) : RingBuffer :=
  { buffer := storage, head := 0, tail := 0, size := 0 }

/-- Embedding of `ringBufferIsFull` from `ring_buffer.c`. -/
def ringBufferIsFull (rb : RingBuffer) : Bool :=
  rb.size == BUFFER_MAX_SIZE

/-- Embedding of `ringBufferIsEmpty` from `ring_buffer.c`. -/
def ringBufferIsEmpty (rb : RingBuffer) : Bool :=
  rb.size == 0

/-- Embedding of `ringBufferPush` from `ring_buffer.c`: fail (returning
`false` and leaving the buffer untouched) when full, otherwise write at
`tail`, advance `tail` modulo the capacity and increment `size`. -/
def ringBufferPush (rb : RingBuffer) (value : ℕ) : Bool × RingBuffer :=
  if ringBufferIsFull rb then
    (false, rb)
  else
    (true,
      { rb with
        buffer := fun i => if i = rb.tail then value else rb.buffer i
        tail := (rb.tail + 1) % BUFFER_MAX_SIZE
        size := rb.size + 1 })

/-- Embedding of `ringBufferPop` from `ring_buffer.c`: fail (returning
`none` and leaving the buffer untouched) when empty, otherwise return the
element at `head`, advance `head` modulo the capacity and decrement `size`. -/
def ringBufferPop (rb : RingBuffer) : Option ℕ × RingBuffer :=
  if ringBufferIsEmpty rb then
    (none, rb)
  else
    (some (rb.buffer rb.head),
      { rb with
        head := (rb.head + 1) % BUFFER_MAX_SIZE
        size := rb.size - 1 })

/-- Abstract contents of a ring buffer: the `size` stored words starting at
`head`, oldest first. -/
def ringContents (rb : RingBuffer) : List ℕ :=
  (List.range rb.size).map fun i => rb.buffer ((rb.head + i) % BUFFER_MAX_SIZE)

/-- Structural well-formedness of a ring-buffer state: the count is at most
the capacity, `head` is in range and `tail` is `head + size` reduced modulo
the capacity. -/
def RingInv (rb : RingBuffer) : Prop :=
  rb.size ≤ BUFFER_MAX_SIZE ∧ rb.head < BUFFER_MAX_SIZE ∧
    rb.tail = (rb.head + rb.size) % BUFFER_MAX_SIZE

/-- Invariant on ring-buffer states exactly as the specification states it:
`0 ≤ count ≤ N`, `head, tail ∈ [0, N)` and `(tail - head) mod N == count`. -/
def specRingInv (rb : RingBuffer) : Prop :=
  rb.size ≤ BUFFER_MAX_SIZE ∧ rb.head < BUFFER_MAX_SIZE ∧ rb.tail < BUFFER_MAX_SIZE ∧
    ((rb.tail : ℤ) - (rb.head : ℤ)) % (BUFFER_MAX_SIZE : ℤ) = (rb.size : ℤ)

/-- Amended invariant: as `specRingInv` but comparing `(tail - head) mod N`
with `count mod N` (a full buffer has `tail = head`, so the difference is
`0 mod N`, not `N`). -/
def specRingInvAmended (rb : RingBuffer) : Prop :=
  rb.size ≤ BUFFER_MAX_SIZE ∧ rb.head < BUFFER_MAX_SIZE ∧ rb.tail < BUFFER_MAX_SIZE ∧
    ((rb.tail : ℤ) - (rb.head : ℤ)) % (BUFFER_MAX_SIZE : ℤ) = (rb.size : ℤ) % (BUFFER_MAX_SIZE : ℤ)

/-- Ring-buffer states reachable from creation by push and pop steps. -/
inductive RingReachable : RingBuffer → Prop
  | create (storage : ℕ → ℕ) : RingReachable (createRingBuffer storage)
  | push (rb : RingBuffer) (v : ℕ) : RingReachable rb → RingReachable (ringBufferPush rb v).2
  | pop (rb : RingBuffer) : RingReachable rb → RingReachable (ringBufferPop rb).2

/-- Iterated pushes of the same value (used to reach a full buffer). -/
def pushN : ℕ → RingBuffer → RingBuffer
  | 0, rb => rb
  | n + 1, rb => pushN n (ringBufferPush rb 0).2

/-- One client operation on a word queue. -/
inductive QueueOp where
  | push (v : ℕ)
  | pop
deriving DecidableEq

/-- Observable result of one queue operation. -/
inductive QueueOut where
  | pushed (ok : Bool)
  | popped (v : Option ℕ)
deriving DecidableEq

/-- Run a sequence of operations against the C ring buffer, recording every
observable result. -/
def runRingBuffer : RingBuffer → List QueueOp → List QueueOut
  | _, [] => []
  | rb, QueueOp.push v :: ops =>
      QueueOut.pushed (ringBufferPush rb v).1 :: runRingBuffer (ringBufferPush rb v).2 ops
  | rb, QueueOp.pop :: ops =>
      QueueOut.popped (ringBufferPop rb).1 :: runRingBuffer (ringBufferPop rb).2 ops

/-- Reference model: a bounded FIFO queue over a plain list (front first). -/
def specQueuePush (q : List ℕ) (v : ℕ) : Bool × List ℕ :=
  if q.length = BUFFER_MAX_SIZE then (false, q) else (true, q ++ [v])

/-- Reference model pop: return the oldest element, if any. -/
def specQueuePop (q : List ℕ) : Option ℕ × List ℕ :=
  match q with
  | [] => (none, [])
  | x :: t => (some x, t)

/-- Run a sequence of operations against the reference FIFO queue. -/
def runSpecQueue : List ℕ → List QueueOp → List QueueOut
  | _, [] => []
  | q, QueueOp.push v :: ops =>
      QueueOut.pushed (specQueuePush q v).1 :: runSpecQueue (specQueuePush q v).2 ops
  | q, QueueOp.pop :: ops =>
      QueueOut.popped (specQueuePop q).1 :: runSpecQueue (specQueuePop q).2 ops

/-- Embedding of `combineCharsToUint32` from `TX_functions.c`: assemble four
bytes into a 32-bit word, byte 0 least significant. -/
def combineCharsToUint32 (b0 b1 b2 b3 : ℕ) : ℕ :=
  (b3 <<< 24) ||| (b2 <<< 16) ||| (b1 <<< 8) ||| b0

/-- Embedding of `splitUint32ToChars` from `RX_functions.c`: split a 32-bit
word into four bytes, byte 0 least significant. -/
def splitUint32ToChars (value : ℕ) : ℕ × ℕ × ℕ × ℕ :=
  (value &&& 0xFF, (value >>> 8) &&& 0xFF, (value >>> 16) &&& 0xFF, (value >>> 24) &&& 0xFF)

/-- Byte-grouping performed by the loop of `add_str_to_buffer`
(`TX_functions.c` lines 77-86): consume the byte string four bytes at a
time, zero-padding the final partial group, producing one little-endian
word per group. -/
def packLE : List ℕ → List ℕ
  | [] => []
  | [b0] => [combineCharsToUint32 b0 0 0 0]
  | [b0, b1] => [combineCharsToUint32 b0 b1 0 0]
  | [b0, b1, b2] => [combineCharsToUint32 b0 b1 b2 0]
  | b0 :: b1 :: b2 :: b3 :: rest => combineCharsToUint32 b0 b1 b2 b3 :: packLE rest

/-- Byte flattening performed by `process_buffer_recursive`
(`RX_functions.c` lines 119-125): split each word into its four bytes and
append them in order (the `max_length` truncation guard is not reached in
the properties below). -/
def unpackWords : List ℕ → List ℕ
  | [] => []
  | w :: rest =>
      (splitUint32ToChars w).1 :: (splitUint32ToChars w).2.1 ::
        (splitUint32ToChars w).2.2.1 :: (splitUint32ToChars w).2.2.2 :: unpackWords rest

/-- Embedding of `add_str_to_buffer` from `TX_functions.c`: for each 4-byte
group of the input (zero-padded at the end), call `key_generator` once, XOR
the packed word with the keystream word, and push the result; a failed push
is ignored.  Returns the updated TX encryption state and ring buffer. -/
def add_str_to_buffer : List ℕ → encryption_vars_t → RingBuffer → encryption_vars_t × RingBuffer
  | [], e, rb => (e, rb)
  | [b0], e, rb =>
      ((key_generator e).2,
        (ringBufferPush rb (combineCharsToUint32 b0 0 0 0 ^^^ (key_generator e).1)).2)
  | [b0, b1], e, rb =>
      ((key_generator e).2,
        (ringBufferPush rb (combineCharsToUint32 b0 b1 0 0 ^^^ (key_generator e).1)).2)
  | [b0, b1, b2], e, rb =>
      ((key_generator e).2,
        (ringBufferPush rb (combineCharsToUint32 b0 b1 b2 0 ^^^ (key_generator e).1)).2)
  | b0 :: b1 :: b2 :: b3 :: rest, e, rb =>
      add_str_to_buffer rest (key_generator e).2
        (ringBufferPush rb (combineCharsToUint32 b0 b1 b2 b3 ^^^ (key_generator e).1)).2

/-- State touched by the TX timer interrupt (`TX_functions.c`): the word
being sent, the bit counter (a `uint8_t`), the in-progress flag, whether the
timer is armed, and the level currently driven on the TX pin. -/
structure TXState where
  value_TX : ℕ
  bit_counter_TX : ℕ
  in_transmission : Bool
  timer_running : Bool
  pin : Bool
deriving DecidableEq

/-- Embedding of `timer_TX_ISR` from `TX_functions.c`: for counter values
below 32 drive the pin to the selected bit of `value_TX` and advance the
counter; at exactly 32 drive the pin high and advance; for larger values
stop the timer, clear `in_transmission` and reset the counter to zero
(this branch returns before the shared `bit_counter_TX++`). -/
def timer_TX_ISR (s : TXState) : TXState :=
  if s.bit_counter_TX < 32 then
    { s with
      pin := ((s.value_TX >>> s.bit_counter_TX) &&& 1) != 0
      bit_counter_TX := (s.bit_counter_TX + 1) % 256 }
  else if s.bit_counter_TX = 32 then
    { s with
      pin := true
      bit_counter_TX := (s.bit_counter_TX + 1) % 256 }
  else
    { s with
      timer_running := false
      in_transmission := false
      bit_counter_TX := 0 }

/-- Formalization of the per-call description in claim C1 exactly as stated: the
contribution (bit pattern of the advanced `map1.y`, XORed with the pattern of
`map1.x` for the logistic variant only) is ADDED to `generator.w`
(`w += contribution`), then square / add / rotate / truncate as in `msws32`.
This differs from the source, which overwrites `w` with the contribution and
lets the MSWS step add the Weyl increment `s`. -/
def key_generator_claimed (e : encryption_vars_t) : ℕ × encryption_vars_t :=
  let m1 := chaotic_map_iteration e.type e.chaotic_map1
  let contribution :=
    if e.type = map_type_t.MAP_LOGISTIC then
      doubleToUint64Bits m1.y ^^^ doubleToUint64Bits m1.x
    else
      doubleToUint64Bits m1.y
  let w1 := (e.msws32_variables.w + contribution) % 2 ^ 64
  let x2 := ((e.msws32_variables.x * e.msws32_variables.x) % 2 ^ 64 + w1) % 2 ^ 64
  let x3 := (x2 >>> 32) ||| ((x2 <<< 32) % 2 ^ 64)
  (x3 % 2 ^ 32, { e with chaotic_map1 := m1, msws32_variables := ⟨x3, w1, e.msws32_variables.s⟩ })

/-- Direct MSWS computation named by claim C3:
`x *= x; x += (w += s); x = rotate64(x, 32); return x as u32`. -/
def mswsDirect (x w s : ℕ) : ℕ :=
  let w1 := (w + s) % 2 ^ 64
  let x1 := (x * x) % 2 ^ 64
  let x2 := (x1 + w1) % 2 ^ 64
  ((x2 >>> 32) ||| ((x2 <<< 32) % 2 ^ 64)) % 2 ^ 32

/-- Claim C1, counterexample.  The claim states that the MSWS step updates
`generator.w` by adding the contribution (`w += contribution`).  At the state
below (Duffing variant, `map1 = (0, 0)`, so the contribution is the bit
pattern of `0.0`, namely `0`; `w = 5`, `s = 7`) that reading predicts the
post-call `w` to be `(5 + 0) % 2^64 = 5`, but `key_generator` leaves `w = 7`:
the code overwrites `w` with the contribution and then adds `s` inside
`msws32`.  Both values are computed from `key_generator_claimed` (the claim
as stated) and `key_generator` (the source). -/
theorem C1_counterexample :
    (key_generator
        ⟨map_type_t.MAP_DUFFING, ⟨⟨0, 1⟩, ⟨0, 1⟩, 0⟩, ⟨⟨0, 1⟩, ⟨0, 1⟩, 0⟩,
          ⟨0, 5, 7⟩⟩).2.msws32_variables.w = 7 ∧
    (key_generator_claimed
        ⟨map_type_t.MAP_DUFFING, ⟨⟨0, 1⟩, ⟨0, 1⟩, 0⟩, ⟨⟨0, 1⟩, ⟨0, 1⟩, 0⟩,
          ⟨0, 5, 7⟩⟩).2.msws32_variables.w = 5 ∧
    (key_generator
        ⟨map_type_t.MAP_DUFFING, ⟨⟨0, 1⟩, ⟨0, 1⟩, 0⟩, ⟨⟨0, 1⟩, ⟨0, 1⟩, 0⟩,
          ⟨0, 5, 7⟩⟩) ≠
    (key_generator_claimed
        ⟨map_type_t.MAP_DUFFING, ⟨⟨0, 1⟩, ⟨0, 1⟩, 0⟩, ⟨⟨0, 1⟩, ⟨0, 1⟩, 0⟩,
          ⟨0, 5, 7⟩⟩) := by
  refine ⟨by decide, by decide, by decide⟩

/-- Claim C1 (amended): every `key_generator` call advances `chaotic_map1`
one iteration of the rule of the configured variant; the contribution is the
IEEE-754 bit pattern of the advanced `map1.y`, additionally XORed with the
bit pattern of `map1.x` exactly when the variant is Logistic; the MSWS step
then OVERWRITES `generator.w` with the contribution and adds the Weyl
increment `s` (`w = contribution; w += s`), squares `generator.x` with
64-bit wraparound, adds `generator.w`, rotates by 32 bits storing the result
back, and returns the low 32 bits of the rotated value. -/
theorem C1_key_generator_step :
    ∀ e : encryption_vars_t,
      key_generator e =
        (let m1 := chaotic_map_iteration e.type e.chaotic_map1
         let contribution :=
           if e.type = map_type_t.MAP_LOGISTIC then
             doubleToUint64Bits m1.y ^^^ doubleToUint64Bits m1.x
           else
             doubleToUint64Bits m1.y
         let w1 := (contribution + e.msws32_variables.s) % 2 ^ 64
         let x2 := ((e.msws32_variables.x * e.msws32_variables.x) % 2 ^ 64 + w1) % 2 ^ 64
         let x3 := (x2 >>> 32) ||| ((x2 <<< 32) % 2 ^ 64)
         (x3 % 2 ^ 32,
           { e with chaotic_map1 := m1, msws32_variables := ⟨x3, w1, e.msws32_variables.s⟩ })) :=
  fun _ => rfl

/-- Claim C2, counterexample.  The claim states that after
`key_generator_setup` the field `w` of the generator equals `0` for every starting
state; but `key_generator_setup` never writes `w`, so a state entering setup
with `w = 5` (Duffing variant, both maps with zero warm-up iterations) still
has `w = 5` afterwards. -/
theorem C2_counterexample :
    (key_generator_setup
        ⟨map_type_t.MAP_DUFFING, ⟨⟨0, 1⟩, ⟨0, 1⟩, 0⟩, ⟨⟨0, 1⟩, ⟨0, 1⟩, 0⟩,
          ⟨0, 5, 0⟩⟩).msws32_variables.w ≠ 0 := by decide

/-- Claim C2 (amended): `key_generator_setup` iterates `chaotic_map1` and
`chaotic_map2` for their configured iteration counts, then sets both
`generator.x` and `generator.s` to the IEEE-754 bit pattern of the
post-warm-up `map2.y`, leaving `generator.w` UNCHANGED; `w = 0` holds after
the configuration path (`cmd_set_encryption`), which zeroes the whole MSWS
struct by `memset` immediately before calling `key_generator_setup`. -/
theorem C2_key_generator_setup :
    (∀ e : encryption_vars_t,
      key_generator_setup e =
        { e with
          chaotic_map1 :=
            iterate_map (chaotic_map_iteration e.type) e.chaotic_map1.iterations e.chaotic_map1
          chaotic_map2 :=
            iterate_map (chaotic_map_iteration e.type) e.chaotic_map2.iterations e.chaotic_map2
          msws32_variables :=
            { x := doubleToUint64Bits
                (iterate_map (chaotic_map_iteration e.type) e.chaotic_map2.iterations
                  e.chaotic_map2).y
              w := e.msws32_variables.w
              s := doubleToUint64Bits
                (iterate_map (chaotic_map_iteration e.type) e.chaotic_map2.iterations
                  e.chaotic_map2).y } }) ∧
    (∀ (t : map_type_t) (x1 y1 : Fl) (it1 : ℕ) (x2 y2 : Fl) (it2 : ℕ),
      (cmd_set_encryption_vars t x1 y1 it1 x2 y2 it2).msws32_variables.w = 0) :=
  ⟨fun _ => rfl, fun _ _ _ _ _ _ _ => rfl⟩

/-- Claim C3, counterexample.  From the state `x = 0, w = 0, s = 1` the first
`msws32` call returns `0` and leaves `x = 2^32, w = 1`; the SECOND call then
also returns `0` (its pre-rotation value `2` has an empty high 32-bit half),
contradicting the claim that every call after the first returns a nonzero
output. -/
theorem C3_counterexample : (msws32 (msws32 ⟨0, 0, 1⟩).2).1 = 0 := by decide

/-- Claim C3 (amended): starting from `x = 0, w = 0, s = 1`, the first
`msws32` call returns the same value as the direct computation
`x *= x; x += (w += s); x = rotate64(x, 32); return x as u32`, namely `0`;
every call is a deterministic 32-bit output (below `2^32`), but outputs
after the first are NOT necessarily nonzero: the second call also returns
`0`. -/
theorem C3_msws_fixture :
    (msws32 ⟨0, 0, 1⟩).1 = mswsDirect 0 0 1 ∧
    (msws32 ⟨0, 0, 1⟩).1 = 0 ∧
    (∀ v : msws32_var_t, (msws32 v).1 < 2 ^ 32) ∧
    (msws32 (msws32 ⟨0, 0, 1⟩).2).1 = 0 :=
  ⟨rfl, rfl, fun _ => Nat.mod_lt _ (by norm_num), by decide⟩

/-- Claim C7: the TX timer ISR drives the pin to bit `i` of the current word
(LSB first) and increments the counter while `i < 32`; at `i = 32` it drives
the pin high (stop level) and advances; on the following tick (`i = 33`) it
stops the timer, clears the in-transmission flag and resets the bit counter
to `0`, returning the machine to the idle state. -/
theorem C7_tx_isr :
    ∀ s : TXState,
      (s.bit_counter_TX < 32 →
        timer_TX_ISR s =
          { s with
            pin := s.value_TX.testBit s.bit_counter_TX
            bit_counter_TX := s.bit_counter_TX + 1 }) ∧
      (s.bit_counter_TX = 32 →
        timer_TX_ISR s = { s with pin := true, bit_counter_TX := 33 }) ∧
      (s.bit_counter_TX = 33 →
        timer_TX_ISR s =
          { s with timer_running := false, in_transmission := false, bit_counter_TX := 0 }) := by
  intro s
  refine ⟨fun h => ?_, fun h => ?_, fun h => ?_⟩
  · unfold timer_TX_ISR
    rw [if_pos h]
    have h1 : (s.bit_counter_TX + 1) % 256 = s.bit_counter_TX + 1 := Nat.mod_eq_of_lt (by omega)
    have h2 : (((s.value_TX >>> s.bit_counter_TX) &&& 1) != 0) =
        s.value_TX.testBit s.bit_counter_TX := by
      simp [Nat.testBit, Nat.and_one_is_mod, Nat.one_and_eq_mod_two]
    rw [h1, h2]
  · unfold timer_TX_ISR
    simp only [h]
    norm_num
  · unfold timer_TX_ISR
    simp only [h]
    norm_num

/-- Claim C7, witness: the three ISR cases evaluated at concrete states
(word `8`, whose bit 3 is set). -/
theorem C7_tx_isr_witness :
    timer_TX_ISR ⟨8, 3, true, true, false⟩ = ⟨8, 4, true, true, true⟩ ∧
    timer_TX_ISR ⟨8, 32, true, true, false⟩ = ⟨8, 33, true, true, true⟩ ∧
    timer_TX_ISR ⟨8, 33, true, true, true⟩ = ⟨8, 0, false, false, true⟩ := by
  refine ⟨?_, ?_, ?_⟩
  · rw [(C7_tx_isr ⟨8, 3, true, true, false⟩).1 (by decide)]; decide
  · rw [(C7_tx_isr ⟨8, 32, true, true, false⟩).2.1 rfl]
  · rw [(C7_tx_isr ⟨8, 33, true, true, true⟩).2.2 rfl]

/-- Claim C8: keystream determinism.  Two generator instances configured
through the console path with equal variants, seeds and iteration counts
produce identical keystream sequences for every number of calls: the output
is a function of the stored state alone. -/
theorem C8_keystream_determinism :
    ∀ (t t' : map_type_t) (x1 y1 x2 y2 x1' y1' x2' y2' : Fl) (n1 n2 n1' n2' : ℕ),
      t = t' → x1 = x1' → y1 = y1' → n1 = n1' → x2 = x2' → y2 = y2' → n2 = n2' →
      ∀ N : ℕ,
        keystreamList (cmd_set_encryption_vars t x1 y1 n1 x2 y2 n2) N =
        keystreamList (cmd_set_encryption_vars t' x1' y1' n1' x2' y2' n2') N := by
  intro t t' x1 y1 x2 y2 x1' y1' x2' y2' n1 n2 n1' n2' ht hx1 hy1 hn1 hx2 hy2 hn2 N
  subst ht hx1 hy1 hn1 hx2 hy2 hn2
  rfl

/-- Claim C8, witness: two Duffing instances with identical seeds `(1/2, 1/2)`
and one warm-up iteration produce the same first two keystream words. -/
theorem C8_keystream_determinism_witness :
    keystreamList (cmd_set_encryption_vars map_type_t.MAP_DUFFING ⟨1, 2⟩ ⟨1, 2⟩ 1 ⟨1, 2⟩ ⟨1, 2⟩ 1) 2 =
    keystreamList (cmd_set_encryption_vars map_type_t.MAP_DUFFING ⟨1, 2⟩ ⟨1, 2⟩ 1 ⟨1, 2⟩ ⟨1, 2⟩ 1) 2 :=
  C8_keystream_determinism _ _ _ _ _ _ _ _ _ _ _ _ _ _ rfl rfl rfl rfl rfl rfl rfl 2

/-- Claim C10: `add_str_to_buffer` advances the TX keystream generator by
exactly one `key_generator` call per 4-byte group (`⌈len / 4⌉` calls in
total), regardless of the ring buffer passed in and hence regardless of
whether any push succeeds: a word dropped because the buffer is full has
still consumed its keystream word. -/
theorem C10_keystream_advance :
    ∀ (bytes : List ℕ) (e : encryption_vars_t) (rb : RingBuffer),
      (add_str_to_buffer bytes e rb).1 = advance_generator ((bytes.length + 3) / 4) e
  | [], _, _ => rfl
  | [_], e, rb => by simp [add_str_to_buffer, advance_generator]
  | [_, _], e, rb => by simp [add_str_to_buffer, advance_generator]
  | [_, _, _], e, rb => by simp [add_str_to_buffer, advance_generator]
  | b0 :: b1 :: b2 :: b3 :: rest, e, rb => by
    have h : ((b0 :: b1 :: b2 :: b3 :: rest).length + 3) / 4 = (rest.length + 3) / 4 + 1 := by
      simp only [List.length_cons]
      omega
    rw [h]
    show (add_str_to_buffer rest (key_generator e).2
        (ringBufferPush rb (combineCharsToUint32 b0 b1 b2 b3 ^^^ (key_generator e).1)).2).1 =
      advance_generator ((rest.length + 3) / 4) (key_generator e).2
    exact C10_keystream_advance rest (key_generator e).2 _

/-- Claim C9: one Duffing iteration maps `(x, y)` to `(y, -0.2*x + 2.75*y - y^3)`
(each operation in binary64); in particular, from `x = 0.1, y = 1.1` a single
iteration yields exactly the binary64 values `x_new = 1.1` and
`y_new = 1.674` (the computed double coincides bit-for-bit with the double
nearest the decimal literal `1.674`). -/
theorem C9_duffing_fixture :
    (∀ m : chaotic_map_t,
      (duffing_map_iteration m).x = m.y ∧
      (duffing_map_iteration m).y =
        flsub (fladd (flmul DUFFING_BETA.neg m.x) (flmul DUFFING_ALPHA m.y))
              (flmul (flmul m.y m.y) m.y)) ∧
    (duffing_map_iteration { x := flDec 1 10, y := flDec 11 10, iterations := 0 }).x =
      flDec 11 10 ∧
    (duffing_map_iteration { x := flDec 1 10, y := flDec 11 10, iterations := 0 }).y =
      flDec 1674 1000 :=
  ⟨fun _ => ⟨rfl, rfl⟩, by decide, by decide⟩

theorem length_ringContents (rb : RingBuffer) : (ringContents rb).length = rb.size := by
  simp [ringContents]

theorem ringInv_create (storage : ℕ → ℕ) : RingInv (createRingBuffer storage) := by
  refine ⟨?_, ?_, ?_⟩ <;> simp [createRingBuffer, RingInv, BUFFER_MAX_SIZE]

theorem ringContents_create (storage : ℕ → ℕ) : ringContents (createRingBuffer storage) = [] := by
  simp [ringContents, createRingBuffer]

theorem ringBufferPush_full (rb : RingBuffer) (v : ℕ) (hf : rb.size = BUFFER_MAX_SIZE) :
    ringBufferPush rb v = (false, rb) := by
  simp [ringBufferPush, ringBufferIsFull, hf]

theorem ringBufferPush_not_full (rb : RingBuffer) (v : ℕ) (hnf : rb.size ≠ BUFFER_MAX_SIZE) :
    ringBufferPush rb v =
      (true,
        { rb with
          buffer := fun i => if i = rb.tail then v else rb.buffer i
          tail := (rb.tail + 1) % BUFFER_MAX_SIZE
          size := rb.size + 1 }) := by
  simp [ringBufferPush, ringBufferIsFull, hnf]

theorem ringBufferPop_empty (rb : RingBuffer) (he : rb.size = 0) :
    ringBufferPop rb = (none, rb) := by
  simp [ringBufferPop, ringBufferIsEmpty, he]

theorem ringBufferPop_not_empty (rb : RingBuffer) (hne : rb.size ≠ 0) :
    ringBufferPop rb =
      (some (rb.buffer rb.head),
        { rb with head := (rb.head + 1) % BUFFER_MAX_SIZE, size := rb.size - 1 }) := by
  simp [ringBufferPop, ringBufferIsEmpty, hne]

theorem ringInv_push (rb : RingBuffer) (v : ℕ) (hInv : RingInv rb)
    (hnf : rb.size ≠ BUFFER_MAX_SIZE) : RingInv (ringBufferPush rb v).2 := by
  obtain ⟨hsz, hh, ht⟩ := hInv
  rw [ringBufferPush_not_full rb v hnf]
  simp only [RingInv, BUFFER_MAX_SIZE] at *
  refine ⟨by omega, hh, by omega⟩

theorem ringInv_pop (rb : RingBuffer) (hInv : RingInv rb) (hne : rb.size ≠ 0) :
    RingInv (ringBufferPop rb).2 := by
  obtain ⟨hsz, hh, ht⟩ := hInv
  rw [ringBufferPop_not_empty rb hne]
  simp only [RingInv, BUFFER_MAX_SIZE] at *
  refine ⟨by omega, by omega, by omega⟩

theorem ringContents_push (rb : RingBuffer) (v : ℕ) (hInv : RingInv rb)
    (hnf : rb.size ≠ BUFFER_MAX_SIZE) :
    ringContents (ringBufferPush rb v).2 = ringContents rb ++ [v] := by
  obtain ⟨hsz, hh, ht⟩ := hInv
  rw [ringBufferPush_not_full rb v hnf]
  unfold ringContents
  simp only [List.range_succ, List.map_append, List.map_cons, List.map_nil]
  congr 1
  · apply List.map_congr_left
    intro i hi
    simp only [List.mem_range] at hi
    have hne2 : (rb.head + i) % BUFFER_MAX_SIZE ≠ rb.tail := by
      rw [ht]
      simp only [BUFFER_MAX_SIZE] at *
      omega
    simp [hne2]
  · have heq : (rb.head + rb.size) % BUFFER_MAX_SIZE = rb.tail := ht.symm
    simp [heq]

theorem ringContents_pop (rb : RingBuffer) (hInv : RingInv rb) (hne : rb.size ≠ 0) :
    ringContents rb = rb.buffer rb.head :: ringContents (ringBufferPop rb).2 := by
  obtain ⟨hsz, hh, ht⟩ := hInv
  rw [ringBufferPop_not_empty rb hne]
  unfold ringContents
  obtain ⟨n, hn⟩ : ∃ n, rb.size = n + 1 := ⟨rb.size - 1, by omega⟩
  rw [hn]
  simp only [List.range_succ_eq_map, List.map_cons, List.map_map, Nat.add_sub_cancel]
  congr 1
  · have : rb.head % BUFFER_MAX_SIZE = rb.head := Nat.mod_eq_of_lt hh
    simp [this]
  · apply List.map_congr_left
    intro i hi
    simp only [Function.comp_apply]
    congr 1
    simp only [BUFFER_MAX_SIZE] at *
    omega

theorem ring_buffer_refines_queue :
    ∀ (ops : List QueueOp) (rb : RingBuffer), RingInv rb →
      runRingBuffer rb ops = runSpecQueue (ringContents rb) ops
  | [], _, _ => rfl
  | QueueOp.push v :: ops, rb, hInv => by
    by_cases hf : rb.size = BUFFER_MAX_SIZE
    · have hq : (ringContents rb).length = BUFFER_MAX_SIZE := by
        rw [length_ringContents, hf]
      show QueueOut.pushed (ringBufferPush rb v).1 ::
          runRingBuffer (ringBufferPush rb v).2 ops =
        QueueOut.pushed (specQueuePush (ringContents rb) v).1 ::
          runSpecQueue (specQueuePush (ringContents rb) v).2 ops
      rw [ringBufferPush_full rb v hf]
      simp only [specQueuePush, if_pos hq]
      exact congrArg _ (ring_buffer_refines_queue ops rb hInv)
    · have hq : (ringContents rb).length ≠ BUFFER_MAX_SIZE := by
        rw [length_ringContents]; exact hf
      show QueueOut.pushed (ringBufferPush rb v).1 ::
          runRingBuffer (ringBufferPush rb v).2 ops =
        QueueOut.pushed (specQueuePush (ringContents rb) v).1 ::
          runSpecQueue (specQueuePush (ringContents rb) v).2 ops
      simp only [specQueuePush, if_neg hq]
      have h1 : (ringBufferPush rb v).1 = true := by
        rw [ringBufferPush_not_full rb v hf]
      rw [h1]
      have h2 := ring_buffer_refines_queue ops (ringBufferPush rb v).2
        (ringInv_push rb v hInv hf)
      rw [h2, ringContents_push rb v hInv hf]
  | QueueOp.pop :: ops, rb, hInv => by
    by_cases he : rb.size = 0
    · have hq : ringContents rb = [] :=
        List.eq_nil_of_length_eq_zero (by rw [length_ringContents]; exact he)
      show QueueOut.popped (ringBufferPop rb).1 ::
          runRingBuffer (ringBufferPop rb).2 ops =
        QueueOut.popped (specQueuePop (ringContents rb)).1 ::
          runSpecQueue (specQueuePop (ringContents rb)).2 ops
      rw [ringBufferPop_empty rb he, hq]
      simp only [specQueuePop]
      rw [← hq]
      exact congrArg _ (ring_buffer_refines_queue ops rb hInv)
  
    · have hcons := ringContents_pop rb hInv he
      show QueueOut.popped (ringBufferPop rb).1 ::
          runRingBuffer (ringBufferPop rb).2 ops =
        QueueOut.popped (specQueuePop (ringContents rb)).1 ::
          runSpecQueue (specQueuePop (ringContents rb)).2 ops
      rw [hcons]
      simp only [specQueuePop]
      have h1 : (ringBufferPop rb).1 = some (rb.buffer rb.head) := by
        rw [ringBufferPop_not_empty rb he]
      rw [h1]
      exact congrArg _ (ring_buffer_refines_queue ops (ringBufferPop rb).2
        (ringInv_pop rb hInv he))

theorem ringInv_reachable : ∀ rb : RingBuffer, RingReachable rb → RingInv rb := by
  intro rb h
  induction h with
  | create storage => exact ringInv_create storage
  | push rb v _ ih =>
    by_cases hf : rb.size = BUFFER_MAX_SIZE
    · rw [ringBufferPush_full rb v hf]; exact ih
    · exact ringInv_push rb v ih hf
  | pop rb _ ih =>
    by_cases he : rb.size = 0
    · rw [ringBufferPop_empty rb he]; exact ih
    · exact ringInv_pop rb ih he

theorem reachable_pushN : ∀ (n : ℕ) (rb : RingBuffer),
    RingReachable rb → RingReachable (pushN n rb)
  | 0, _, h => h
  | n + 1, rb, h => reachable_pushN n _ (RingReachable.push rb 0 h)

/-- Claim C5: ring-buffer FIFO law.  Running any operation sequence against
the C ring buffer from a fresh `createRingBuffer` state produces exactly the
observable results of the reference bounded FIFO queue (so pops return
values in push order); moreover `ringBufferPush` returns `false` exactly
when `size` equals `BUFFER_MAX_SIZE` and then leaves the state (contents,
head, tail and size) unchanged, and `ringBufferPop` returns `none` exactly
when `size` is `0` and then leaves the state unchanged. -/
theorem C5_ring_buffer_fifo :
    (∀ (storage : ℕ → ℕ) (ops : List QueueOp),
      runRingBuffer (createRingBuffer storage) ops = runSpecQueue [] ops) ∧
    (∀ (rb : RingBuffer) (v : ℕ),
      ((ringBufferPush rb v).1 = false ↔ rb.size = BUFFER_MAX_SIZE) ∧
      (rb.size = BUFFER_MAX_SIZE → (ringBufferPush rb v).2 = rb)) ∧
    (∀ rb : RingBuffer,
      ((ringBufferPop rb).1 = none ↔ rb.size = 0) ∧
      (rb.size = 0 → (ringBufferPop rb).2 = rb)) := by
  refine ⟨?_, ?_, ?_⟩
  · intro storage ops
    have h := ring_buffer_refines_queue ops (createRingBuffer storage) (ringInv_create storage)
    rwa [ringContents_create storage] at h
  · intro rb v
    constructor
    · by_cases hf : rb.size = BUFFER_MAX_SIZE
      · rw [ringBufferPush_full rb v hf]
        simp [hf]
      · rw [ringBufferPush_not_full rb v hf]
        simp [hf]
    · intro hf
      rw [ringBufferPush_full rb v hf]
  · intro rb
    constructor
    · by_cases he : rb.size = 0
      · rw [ringBufferPop_empty rb he]
        simp [he]
      · rw [ringBufferPop_not_empty rb he]
        simp [he]
    · intro he
      rw [ringBufferPop_empty rb he]

/-- Claim C5, witness: a full buffer (size 128) rejects a push unchanged and
an empty buffer rejects a pop unchanged. -/
theorem C5_ring_buffer_fifo_witness :
    (ringBufferPush (RingBuffer.mk (fun _ => 0) 0 0 BUFFER_MAX_SIZE) 7).2 =
      RingBuffer.mk (fun _ => 0) 0 0 BUFFER_MAX_SIZE ∧
    (ringBufferPop (RingBuffer.mk (fun _ => 0) 0 0 0)).2 =
      RingBuffer.mk (fun _ => 0) 0 0 0 :=
  ⟨(C5_ring_buffer_fifo.2.1 (RingBuffer.mk (fun _ => 0) 0 0 BUFFER_MAX_SIZE) 7).2 rfl,
   (C5_ring_buffer_fifo.2.2 (RingBuffer.mk (fun _ => 0) 0 0 0)).2 rfl⟩

set_option maxRecDepth 8000 in
/-- Claim C6, counterexample.  Pushing 128 words into a fresh buffer reaches
the full state `head = tail = 0, size = 128`, where the claimed invariant
conjunct `(tail - head) mod N == count` reads `0 = 128` and fails. -/
theorem C6_counterexample :
    RingReachable (pushN 128 (createRingBuffer fun _ => 0)) ∧
    ¬ specRingInv (pushN 128 (createRingBuffer fun _ => 0)) := by
  constructor
  · exact reachable_pushN 128 (createRingBuffer fun _ => 0)
      (RingReachable.create (fun _ => 0))
  · unfold specRingInv
    decide

/-- Claim C6 (amended): the invariant `0 ≤ count ≤ N`, `head, tail ∈ [0, N)`
and `(tail - head) mod N == count mod N` (the last conjunct weakened from
`== count`, which fails on a full buffer where `tail = head`) holds of a
fresh ring buffer and is preserved by every `ringBufferPush` and
`ringBufferPop`, i.e. of every state reachable from creation. -/
theorem C6_ring_invariant :
    ∀ rb : RingBuffer, RingReachable rb → specRingInvAmended rb := by
  intro rb h
  obtain ⟨hsz, hh, ht⟩ := ringInv_reachable rb h
  refine ⟨hsz, hh, ?_, ?_⟩
  · rw [ht]
    exact Nat.mod_lt _ (by norm_num [BUFFER_MAX_SIZE])
  · rw [ht]
    simp only [BUFFER_MAX_SIZE] at *
    omega

/-- Claim C6, witness: the amended invariant evaluated on a fresh buffer. -/
theorem C6_ring_invariant_witness :
    specRingInvAmended (createRingBuffer fun _ => 0) :=
  C6_ring_invariant (createRingBuffer fun _ => 0) (RingReachable.create (fun _ => 0))

theorem lor_two_pow_add : ∀ (k a b : ℕ), b < 2 ^ k → (a * 2 ^ k) ||| b = a * 2 ^ k + b := by
  intro k
  induction k with
  | zero =>
    intro a b h
    have hb : b = 0 := by omega
    simp [hb]
  | succ k ih =>
    intro a b h
    have hb2 : b / 2 < 2 ^ k := by
      have h2 : b < 2 ^ k * 2 := by rw [← pow_succ]; exact h
      omega
    have hxd : a * 2 ^ (k + 1) / 2 = a * 2 ^ k := by
      rw [pow_succ, ← Nat.mul_assoc]
      exact Nat.mul_div_cancel _ (by norm_num)
    have hxm : a * 2 ^ (k + 1) % 2 = 0 := by
      rw [pow_succ, ← Nat.mul_assoc]
      exact Nat.mul_mod_left (a * 2 ^ k) 2
    have hdiv : (a * 2 ^ (k + 1) ||| b) / 2 = a * 2 ^ k + b / 2 := by
      rw [Nat.or_div_two, hxd, ih a (b / 2) hb2]
    have hmod := Nat.or_mod_two_eq_one (a := a * 2 ^ (k + 1)) (b := b)
    have hrec := Nat.div_add_mod (a * 2 ^ (k + 1) ||| b) 2
    have hbrec := Nat.div_add_mod b 2
    have hx : a * 2 ^ (k + 1) = 2 * (a * 2 ^ k) := by rw [pow_succ]; ring
    omega

theorem combineCharsToUint32_eq (b0 b1 b2 b3 : ℕ)
    (h0 : b0 < 256) (h1 : b1 < 256) (h2 : b2 < 256) (_h3 : b3 < 256) :
    combineCharsToUint32 b0 b1 b2 b3 = b3 * 2 ^ 24 + b2 * 2 ^ 16 + b1 * 2 ^ 8 + b0 := by
  unfold combineCharsToUint32
  rw [Nat.shiftLeft_eq, Nat.shiftLeft_eq, Nat.shiftLeft_eq]
  rw [Nat.or_assoc, Nat.or_assoc]
  rw [lor_two_pow_add 8 b1 b0 (by omega)]
  rw [lor_two_pow_add 16 b2 (b1 * 2 ^ 8 + b0) (by omega)]
  rw [lor_two_pow_add 24 b3 (b2 * 2 ^ 16 + (b1 * 2 ^ 8 + b0)) (by omega)]
  ring

theorem split_combine (b0 b1 b2 b3 : ℕ)
    (h0 : b0 < 256) (h1 : b1 < 256) (h2 : b2 < 256) (h3 : b3 < 256) :
    splitUint32ToChars (combineCharsToUint32 b0 b1 b2 b3) = (b0, b1, b2, b3) := by
  rw [combineCharsToUint32_eq b0 b1 b2 b3 h0 h1 h2 h3]
  unfold splitUint32ToChars
  have hand : ∀ v : ℕ, v &&& 0xFF = v % 2 ^ 8 := by
    intro v
    have h255 : (0xFF : ℕ) = 2 ^ 8 - 1 := by norm_num
    rw [h255, Nat.and_pow_two_sub_one_eq_mod]
  simp only [hand, Nat.shiftRight_eq_div_pow, Prod.mk.injEq]
  refine ⟨by omega, by omega, by omega, by omega⟩

theorem unpack_pack : ∀ bytes : List ℕ, (∀ b ∈ bytes, b < 256) →
    unpackWords (packLE bytes) = bytes ++ List.replicate ((4 - bytes.length % 4) % 4) 0
  | [], _ => rfl
  | [b0], hb => by
    have h0 : b0 < 256 := hb b0 (by simp)
    simp only [packLE, unpackWords]
    rw [split_combine b0 0 0 0 h0 (by norm_num) (by norm_num) (by norm_num)]
    simp [List.replicate]
  | [b0, b1], hb => by
    have h0 : b0 < 256 := hb b0 (by simp)
    have h1 : b1 < 256 := hb b1 (by simp)
    simp only [packLE, unpackWords]
    rw [split_combine b0 b1 0 0 h0 h1 (by norm_num) (by norm_num)]
    simp [List.replicate]
  | [b0, b1, b2], hb => by
    have h0 : b0 < 256 := hb b0 (by simp)
    have h1 : b1 < 256 := hb b1 (by simp)
    have h2 : b2 < 256 := hb b2 (by simp)
    simp only [packLE, unpackWords]
    rw [split_combine b0 b1 b2 0 h0 h1 h2 (by norm_num)]
    simp [List.replicate]
  | b0 :: b1 :: b2 :: b3 :: rest, hb => by
    have h0 : b0 < 256 := hb b0 (by simp)
    have h1 : b1 < 256 := hb b1 (by simp)
    have h2 : b2 < 256 := hb b2 (by simp)
    have h3 : b3 < 256 := hb b3 (by simp)
    have ih := unpack_pack rest (fun b h => hb b (by simp [h]))
    simp only [packLE, unpackWords]
    rw [split_combine b0 b1 b2 b3 h0 h1 h2 h3]
    simp only [List.length_cons]
    have hpad : (4 - (rest.length + 1 + 1 + 1 + 1) % 4) % 4 = (4 - rest.length % 4) % 4 := by
      omega
    rw [hpad, ih]
    simp

theorem zipWith_xor_cancel : ∀ ws ks : List ℕ, ws.length = ks.length →
    List.zipWith (fun w k => w ^^^ k) (List.zipWith (fun w k => w ^^^ k) ws ks) ks = ws
  | [], [], _ => rfl
  | [], _ :: _, h => by simp at h
  | _ :: _, [], h => by simp at h
  | w :: ws, k :: ks, h => by
    simp only [List.zipWith_cons_cons, Nat.xor_cancel_right]
    exact congrArg (List.cons w) (zipWith_xor_cancel ws ks (by simpa using h))

theorem keystreamList_length : ∀ (e : encryption_vars_t) (n : ℕ), (keystreamList e n).length = n
  | _, 0 => rfl
  | e, n + 1 => by simp [keystreamList, keystreamList_length (key_generator e).2 n]

set_option maxRecDepth 8000 in
/-- Claim C4, counterexample.  For the 1-byte string `"A"` (byte `65`),
encrypting and decrypting with identical keystreams reproduces the zero
padding of the final partial group as well: the output is `[65, 0, 0, 0]`,
not the original single byte, so "reproduces the original bytes exactly"
fails for byte strings whose length is not a multiple of 4. -/
theorem C4_counterexample :
    unpackWords
      (List.zipWith (fun w k => w ^^^ k)
        (List.zipWith (fun w k => w ^^^ k) (packLE [65])
          (keystreamList
            ⟨map_type_t.MAP_DUFFING, ⟨⟨0, 1⟩, ⟨0, 1⟩, 0⟩, ⟨⟨0, 1⟩, ⟨0, 1⟩, 0⟩, ⟨0, 0, 0⟩⟩
            (packLE [65]).length))
        (keystreamList
          ⟨map_type_t.MAP_DUFFING, ⟨⟨0, 1⟩, ⟨0, 1⟩, 0⟩, ⟨⟨0, 1⟩, ⟨0, 1⟩, 0⟩, ⟨0, 0, 0⟩⟩
          (packLE [65]).length)) ≠ [65] := by
  decide

/-- Claim C4 (amended): with the TX and RX keystreams identical and advanced
in lockstep, splitting a byte string into 4-byte little-endian words with
zero padding, XORing each word with its keystream word, XORing again with
the same keystream word and splitting back into bytes reproduces the
original bytes FOLLOWED BY THE ZERO PADDING of the final partial group; the
result equals the original byte string exactly when its length is a multiple
of 4 (as for the 12-byte "Hello World!"), and the 4-byte pack/unpack pair is
mutually inverse at word granularity. -/
theorem C4_stream_roundtrip :
    (∀ b0 b1 b2 b3 : ℕ, b0 < 256 → b1 < 256 → b2 < 256 → b3 < 256 →
      splitUint32ToChars (combineCharsToUint32 b0 b1 b2 b3) = (b0, b1, b2, b3)) ∧
    (∀ (e : encryption_vars_t) (bytes : List ℕ), (∀ b ∈ bytes, b < 256) →
      unpackWords
        (List.zipWith (fun w k => w ^^^ k)
          (List.zipWith (fun w k => w ^^^ k) (packLE bytes)
            (keystreamList e (packLE bytes).length))
          (keystreamList e (packLE bytes).length)) =
      bytes ++ List.replicate ((4 - bytes.length % 4) % 4) 0) ∧
    (∀ (e : encryption_vars_t) (bytes : List ℕ), (∀ b ∈ bytes, b < 256) →
      bytes.length % 4 = 0 →
      unpackWords
        (List.zipWith (fun w k => w ^^^ k)
          (List.zipWith (fun w k => w ^^^ k) (packLE bytes)
            (keystreamList e (packLE bytes).length))
          (keystreamList e (packLE bytes).length)) = bytes) := by
  have hmain : ∀ (e : encryption_vars_t) (bytes : List ℕ), (∀ b ∈ bytes, b < 256) →
      unpackWords
        (List.zipWith (fun w k => w ^^^ k)
          (List.zipWith (fun w k => w ^^^ k) (packLE bytes)
            (keystreamList e (packLE bytes).length))
          (keystreamList e (packLE bytes).length)) =
      bytes ++ List.replicate ((4 - bytes.length % 4) % 4) 0 := by
    intro e bytes hb
    rw [zipWith_xor_cancel (packLE bytes) (keystreamList e (packLE bytes).length)
      (keystreamList_length e (packLE bytes).length).symm]
    exact unpack_pack bytes hb
  refine ⟨split_combine, hmain, ?_⟩
  intro e bytes hb h4
  rw [hmain e bytes hb, h4]
  simp

/-- Claim C4, witness: the 12-byte "Hello World!" encrypted and decrypted
with the keystream of a concrete Duffing-seeded generator comes back
byte-identical. -/
theorem C4_stream_roundtrip_witness :
    unpackWords
      (List.zipWith (fun w k => w ^^^ k)
        (List.zipWith (fun w k => w ^^^ k)
          (packLE [72, 101, 108, 108, 111, 32, 87, 111, 114, 108, 100, 33])
          (keystreamList
            ⟨map_type_t.MAP_DUFFING, ⟨⟨0, 1⟩, ⟨0, 1⟩, 0⟩, ⟨⟨0, 1⟩, ⟨0, 1⟩, 0⟩, ⟨0, 0, 0⟩⟩
            (packLE [72, 101, 108, 108, 111, 32, 87, 111, 114, 108, 100, 33]).length))
        (keystreamList
          ⟨map_type_t.MAP_DUFFING, ⟨⟨0, 1⟩, ⟨0, 1⟩, 0⟩, ⟨⟨0, 1⟩, ⟨0, 1⟩, 0⟩, ⟨0, 0, 0⟩⟩
          (packLE [72, 101, 108, 108, 111, 32, 87, 111, 114, 108, 100, 33]).length)) =
    [72, 101, 108, 108, 111, 32, 87, 111, 114, 108, 100, 33] :=
  C4_stream_roundtrip.2.2
    ⟨map_type_t.MAP_DUFFING, ⟨⟨0, 1⟩, ⟨0, 1⟩, 0⟩, ⟨⟨0, 1⟩, ⟨0, 1⟩, 0⟩, ⟨0, 0, 0⟩⟩
    [72, 101, 108, 108, 111, 32, 87, 111, 114, 108, 100, 33]
    (by decide) (by decide)
